import Mathlib

/-!
Verification development for the access-aggregation core of
gcp-access-visualizer (Go backend, package `gcp`).

The embedding models Go strings as `List Char` (`Str`), Go maps whose writes
are guarded by a presence check as association lists in insertion order, and
fallible collaborator calls (project IAM policy fetch, inventory backends,
policy-search stream) as `Except`/explicit inputs.  The modelled functions
follow the Go source line by line: `parseUser`, `GetUsers`,
`extractResourceName`, `extractResourceType`, `getApplicableResourceTypes`,
`contains`, `GetResources` and `GetAccessMatrix`.
-/

/-! ## Definitions: the shallow embedding of the source -/

abbrev Str := List Char

/-- Go `member[:n] == p` style check: does `s` start with `p`
(model of `strings.HasPrefix s p` with the prefix as first argument). -/
def hasPfx : Str → Str → Bool
  | [], _ => true
  | _ :: _, [] => false
  | p :: ps, c :: cs => if p = c then hasPfx ps cs else false

/-- Model of Go `strings.Contains s sub`. -/
def hasSub : Str → Str → Bool
  | [], sub => hasPfx sub []
  | c :: rest, sub => hasPfx sub (c :: rest) || hasSub rest sub

/-- Does the string end with the character `':'`. -/
def endsWithColon : Str → Bool
  | [] => false
  | [c] => c = ':'
  | _ :: c :: rest => endsWithColon (c :: rest)

/-- Membership of a string in a list of strings (model of a Go
`map[string]bool` presence check). -/
def memStr : List Str → Str → Bool
  | [], _ => false
  | s :: rest, x => if s = x then true else memStr rest x

/-- First-match lookup in an association list (model of a Go map read;
all modelled map writes are insert-if-absent, so first match is the value). -/
def alookup {α : Type} : List (Str × α) → Str → Option α
  | [], _ => none
  | p :: rest, k => if p.1 = k then some p.2 else alookup rest k

/-- Model of Go `m[k] = append(m[k], v)` for a `map[string][]string`. -/
def aappend : List (Str × List Str) → Str → Str → List (Str × List Str)
  | [], k, v => [(k, [v])]
  | p :: rest, k, v =>
    if p.1 = k then (p.1, p.2 ++ [v]) :: rest else p :: aappend rest k v

/-- Number of entries stored under key `k`. -/
def countKey {α : Type} (l : List (Str × α)) (k : Str) : Nat :=
  (l.filter (fun p => decide (p.1 = k))).length

/-- Model of Go `strings.Split` with a non-empty separator: scan left to
right, cut at every occurrence of `sep`.  Structurally recursive on a fuel
argument so that it evaluates inside the kernel; `splitStr` supplies fuel
equal to the string length, which always suffices (every recursive call
consumes at least one character and one unit of fuel). -/
def splitAux (sep : Str) : Nat → Str → Str → List Str
  | _, [], acc => [acc]
  | 0, c :: rest, acc => [acc ++ c :: rest]
  | fuel + 1, c :: rest, acc =>
    if sep ≠ [] ∧ hasPfx sep (c :: rest) = true then
      acc :: splitAux sep fuel (List.drop (sep.length - 1) rest) []
    else
      splitAux sep fuel rest (acc ++ [c])

def splitStr (sep s : Str) : List Str := splitAux sep s.length s []

/-- Source data type `User` (field `Type` is renamed `UType`; `Type` is a
Lean keyword). -/
structure User where
  Email : Str
  UType : Str
  deriving DecidableEq, Repr

/-- Source `parseUser`: parse a raw member string into a `User`.
Each known-prefix branch requires `len(member) > len(prefix)` (strict),
so a bare prefix with an empty identifier falls through to `other`. -/
def parseUser (member : Str) : User :=
  if member.length > 5 ∧ member.take 5 = ("user:").toList then
    { Email := member.drop 5, UType := ("user").toList }
  else if member.length > 15 ∧ member.take 15 = ("serviceAccount:").toList then
    { Email := member.drop 15, UType := ("serviceAccount").toList }
  else if member.length > 6 ∧ member.take 6 = ("group:").toList then
    { Email := member.drop 6, UType := ("group").toList }
  else if member.length > 7 ∧ member.take 7 = ("domain:").toList then
    { Email := member.drop 7, UType := ("domain").toList }
  else
    { Email := member, UType := ("other").toList }

/-- Source data type `Resource` (field `Type` renamed `RType`). -/
structure Resource where
  ID : Str
  Name : Str
  RType : Str
  Location : Str
  IAM : List (Str × List Str)
  deriving DecidableEq, Repr

/-- Source `extractResourceName`: last `/`-separated segment of the
identifier (`strings.Split` never returns an empty list, so the fallback
to the whole identifier is dead code, kept for fidelity). -/
def extractResourceName (resourceID : Str) : Str :=
  match (splitStr (("/").toList) resourceID).getLast? with
  | some p => p
  | none => resourceID

/-- Source `extractResourceType`: classify the resource kind from the
identifier by substring containment, with a `//service/…` fallback that
returns the first dot-separated component of the service segment. -/
def extractResourceType (resourceID : Str) : Str :=
  if hasSub resourceID (("cloudresourcemanager.googleapis.com/projects").toList) then
    ("project").toList
  else if hasSub resourceID (("cloudresourcemanager.googleapis.com/organizations").toList) then
    ("organization").toList
  else if hasSub resourceID (("compute.googleapis.com").toList) then
    ("vm").toList
  else if hasSub resourceID (("container.googleapis.com").toList) then
    ("gke").toList
  else if hasSub resourceID (("run.googleapis.com").toList) then
    ("cloudrun").toList
  else if hasSub resourceID (("storage.googleapis.com").toList) then
    ("storage").toList
  else if hasSub resourceID (("bigquery.googleapis.com").toList) then
    ("bigquery").toList
  else if hasSub resourceID (("iam.googleapis.com").toList) then
    ("serviceaccount").toList
  else if hasPfx (("//").toList) resourceID then
    match (splitStr (("/").toList) (resourceID.drop 2)).head? with
    | some first =>
      match (splitStr ((".").toList) first).head? with
      | some sp => sp
      | none => ("other").toList
    | none => ("other").toList
  else
    ("other").toList

/-- Source `getApplicableResourceTypes`: which resource types a role
cascades to.  Note the source tests `strings.Contains`, not a prefix. -/
def getApplicableResourceTypes (role : Str) : List Str :=
  if hasSub role (("roles/owner").toList) || hasSub role (("roles/editor").toList)
      || hasSub role (("roles/viewer").toList) then
    [("storage").toList, ("vm").toList, ("gke").toList, ("cloudrun").toList,
     ("bigquery").toList, ("project").toList, ("serviceaccount").toList]
  else if hasSub role (("roles/storage.").toList) then [("storage").toList]
  else if hasSub role (("roles/compute.").toList) then [("vm").toList]
  else if hasSub role (("roles/container.").toList) then [("gke").toList]
  else if hasSub role (("roles/run.").toList) then [("cloudrun").toList]
  else if hasSub role (("roles/bigquery.").toList) then [("bigquery").toList]
  else if hasSub role (("roles/iam.").toList) then [("serviceaccount").toList]
  else []

/-- Source helper `contains`: linear scan of a string slice. -/
def containsStr : List Str → Str → Bool
  | [], _ => false
  | s :: rest, item => if s = item then true else containsStr rest item

/-- An IAM binding: one role bound to a list of raw member strings. -/
structure Binding where
  Role : Str
  Members : List Str
  deriving DecidableEq, Repr

/-- One item of the project-scoped policy-search stream
(`SearchAllIamPolicies` result): a resource identifier and its bindings. -/
structure PolicyRow where
  Resource : Str
  Bindings : List Binding
  deriving DecidableEq, Repr

/-- The policy-search stream as consumed through the iterator: a finite list
of delivered rows, then either exhaustion (`none`) or a failure (`some e`).
On failure the Go function discards all accumulated state and returns the
error, so the model may test the terminal status up front; the returned
value is identical. -/
structure StreamInput where
  rows : List PolicyRow
  streamErr : Option Str
  deriving DecidableEq, Repr

/-- Source data type `AccessEntry`. -/
structure AccessEntry where
  UserEmail : Str
  ResourceID : Str
  ResourceName : Str
  ResourceType : Str
  Roles : List Str
  deriving DecidableEq, Repr

/-- Source data type `AccessMatrix`. -/
structure AccessMatrix where
  Users : List User
  Resources : List Resource
  Access : List AccessEntry
  deriving DecidableEq, Repr

abbrev AccessList := List (Str × AccessEntry)

/-- Loop body of source `GetUsers`: insert `(member, parseUser member)`
into the member-keyed map if the member string was not seen yet. -/
def addMembers : List Str → List (Str × User) → List (Str × User)
  | [], acc => acc
  | m :: ms, acc =>
    addMembers ms (if alookup acc m = none then acc ++ [(m, parseUser m)] else acc)

def getUsersAcc : List Binding → List (Str × User) → List (Str × User)
  | [], acc => acc
  | b :: bs, acc => getUsersAcc bs (addMembers b.Members acc)

/-- Source `GetUsers`, given an already-fetched project IAM policy:
deduplicate by raw member string, then return the parsed users. -/
def getUsersList (bs : List Binding) : List User :=
  (getUsersAcc bs []).map Prod.snd

/-- All member strings of a binding list, in order. -/
def allMembers : List Binding → List Str
  | [] => []
  | b :: bs => b.Members ++ allMembers bs

/-- Source `GetUsers` with its fallible policy fetch: a fetch failure is
wrapped and returned as an error. -/
def GetUsers (policy : Except Str (List Binding)) : Except Str (List User) :=
  match policy with
  | Except.error e => Except.error ((("failed to get IAM policy: ")).toList ++ e)
  | Except.ok bs => Except.ok (getUsersList bs)

/-- Source `GetResources` (backend/internal/gcp/resources.go): fetch the
three inventory backends in order; the first failure aborts the whole call
with a wrapped error and no resources. -/
def GetResources (gke vms runs : Except Str (List Resource)) :
    Except Str (List Resource) :=
  match gke with
  | Except.error e => Except.error ((("failed to get GKE clusters: ")).toList ++ e)
  | Except.ok g =>
    match vms with
    | Except.error e => Except.error ((("failed to get VMs: ")).toList ++ e)
    | Except.ok v =>
      match runs with
      | Except.error e => Except.error ((("failed to get Cloud Run services: ")).toList ++ e)
      | Except.ok r => Except.ok (g ++ v ++ r)

/-- Insert-or-overwrite map write (`m[k] = v`). -/
def aupsert : List (Str × Resource) → Str → Resource → List (Str × Resource)
  | [], k, v => [(k, v)]
  | p :: rest, k, v =>
    if p.1 = k then (k, v) :: rest else p :: aupsert rest k v

/-- Pre-population of `resourcesMap` from the known-resource list
(`resourcesMap[res.ID] = &r`: a plain map write, i.e. insert-or-overwrite). -/
def prePopulate : List Resource → List (Str × Resource) → List (Str × Resource)
  | [], acc => acc
  | r :: rs, acc => prePopulate rs (aupsert acc r.ID r)

/-- Mutable state of the policy-stream loop in `GetAccessMatrix`. -/
structure LoopState where
  resourcesMap : List (Str × Resource)
  accessMap : AccessList
  users : List User
  validUsers : List Str
  deriving Repr

/-- The access-map key `fmt.Sprintf("%s::%s::%s", userEmail, resourceID, role)`. -/
def accessKey (userEmail resourceID role : Str) : Str :=
  userEmail ++ (("::")).toList ++ resourceID ++ (("::")).toList ++ role

/-- Innermost body of the stream loop: one member of one binding. -/
def processMember (rid rname rtype role : Str) (st : LoopState) (member : Str) :
    LoopState :=
  let user := parseUser member
  let st1 :=
    if memStr st.validUsers user.Email = true then st
    else { st with
            validUsers := st.validUsers ++ [user.Email]
            users := st.users ++ [user] }
  let key := accessKey user.Email rid role
  if alookup st1.accessMap key = none then
    { st1 with
        accessMap := st1.accessMap ++
          [(key, { UserEmail := user.Email, ResourceID := rid,
                   ResourceName := rname, ResourceType := rtype,
                   Roles := [role] })] }
  else st1

def processMembers (rid rname rtype role : Str) : List Str → LoopState → LoopState
  | [], st => st
  | m :: ms, st => processMembers rid rname rtype role ms (processMember rid rname rtype role st m)

def processBindings (rid rname rtype : Str) : List Binding → LoopState → LoopState
  | [], st => st
  | b :: bs, st =>
    processBindings rid rname rtype bs (processMembers rid rname rtype b.Role b.Members st)

/-- One iteration of the stream loop: create the resource if unseen
(location hard-coded to "global" in the source), then process its bindings. -/
def processRow (st : LoopState) (row : PolicyRow) : LoopState :=
  let rid := row.Resource
  let rname := extractResourceName rid
  let rtype := extractResourceType rid
  let st1 :=
    if alookup st.resourcesMap rid = none then
      { st with resourcesMap := st.resourcesMap ++
          [(rid, { ID := rid, Name := rname, RType := rtype,
                   Location := (("global")).toList, IAM := [] })] }
    else st
  processBindings rid rname rtype row.Bindings st1

def processRows : List PolicyRow → LoopState → LoopState
  | [], st => st
  | row :: rest, st => processRows rest (processRow st row)

/-- Model of `fmt.Sprintf("//cloudresourcemanager.googleapis.com/projects/%s", projectID)`. -/
def projectResourceID (projectID : Str) : Str :=
  (("//cloudresourcemanager.googleapis.com/projects/")).toList ++ projectID

/-- Collect project-level roles per user (`projectAccessByUser`): for each
access entry bound to the project resource itself, append its (single) role
to that user's role list. -/
def projectAccessByUser (pid : Str) : AccessList → List (Str × List Str) →
    List (Str × List Str)
  | [], acc => acc
  | p :: rest, acc =>
    projectAccessByUser pid rest
      (if p.2.ResourceID = pid then aappend acc p.2.UserEmail (p.2.Roles.headD []) else acc)

/-- Inner loop of the inheritance resolver: for one `(user, role)` pair,
walk all tracked resources and add an inherited entry for every applicable
resource type, unless the exact key already exists. -/
def inheritStep (pid : Str) (u role : Str) : List (Str × Resource) → AccessList → AccessList
  | [], am => am
  | (rid, res) :: rest, am =>
    inheritStep pid u role rest
      (if rid = pid then am
       else if containsStr (getApplicableResourceTypes role) res.RType = true then
         (if alookup am (accessKey u rid role) = none then
            am ++ [(accessKey u rid role,
                    { UserEmail := u, ResourceID := rid, ResourceName := res.Name,
                      ResourceType := res.RType, Roles := [role] })]
          else am)
       else am)

def resolveRoles (pid : Str) (res : List (Str × Resource)) (u : Str) :
    List Str → AccessList → AccessList
  | [], am => am
  | role :: roles, am => resolveRoles pid res u roles (inheritStep pid u role res am)

def resolveList (pid : Str) (res : List (Str × Resource)) :
    List (Str × List Str) → AccessList → AccessList
  | [], am => am
  | (u, roles) :: rest, am => resolveList pid res rest (resolveRoles pid res u roles am)

/-- Step 2 of `GetAccessMatrix`: the Inheritance Resolver.  Collect the
project-scoped grants, then expand them over the tracked resources. -/
def resolveInheritance (pid : Str) (res : List (Str × Resource)) (am : AccessList) :
    AccessList :=
  resolveList pid res (projectAccessByUser pid am []) am

/-- Model of `fmt.Sprintf("%s::%s", userEmail, resourceID)`. -/
def groupKey (userEmail resourceID : Str) : Str :=
  userEmail ++ (("::")).toList ++ resourceID

/-- Group roles by user-resource combination (`userResourceRoles`). -/
def userResourceRoles : AccessList → List (Str × List Str) → List (Str × List Str)
  | [], acc => acc
  | p :: rest, acc =>
    userResourceRoles rest
      (aappend acc (groupKey p.2.UserEmail p.2.ResourceID) (p.2.Roles.headD []))

/-- Final assembly loop of `GetAccessMatrix`: re-split each grouping key on
`"::"`, skip keys that do not split into exactly two parts, skip resource
ids with no tracked resource, and emit one grouped `AccessEntry` otherwise. -/
def assembleEntries (resourcesMap : List (Str × Resource)) :
    List (Str × List Str) → List AccessEntry → List AccessEntry
  | [], acc => acc
  | (key, roles) :: rest, acc =>
    assembleEntries resourcesMap rest
      (let parts := splitStr ((("::")).toList) key
       if parts.length ≠ 2 then acc
       else
         let userEmail := parts.headD []
         let resourceID := (parts.drop 1).headD []
         match alookup resourcesMap resourceID with
         | none => acc
         | some r =>
           acc ++ [{ UserEmail := userEmail, ResourceID := resourceID,
                     ResourceName := r.Name, ResourceType := r.RType,
                     Roles := roles }])

/-- Source `GetAccessMatrix` over its external collaborators: the project
IAM policy fetch backing `GetUsers` (fatal on error), the known-resource
inventory (warning on error: continue with an empty map), and the
policy-search stream (fatal on error at any point). -/
def GetAccessMatrix (projectID : Str) (projectPolicy : Except Str (List Binding))
    (knownResources : Except Str (List Resource)) (stream : StreamInput) :
    Except Str AccessMatrix :=
  match GetUsers projectPolicy with
  | Except.error e => Except.error e
  | Except.ok users0 =>
    let validUsers0 := users0.map User.Email
    let resourcesMap0 :=
      match knownResources with
      | Except.ok rs => prePopulate rs []
      | Except.error _ => []
    match stream.streamErr with
    | some e => Except.error ((("failed to iterate policies: ")).toList ++ e)
    | none =>
      let st := processRows stream.rows
        { resourcesMap := resourcesMap0, accessMap := [],
          users := users0, validUsers := validUsers0 }
      let pid := projectResourceID projectID
      let am2 := resolveInheritance pid st.resourcesMap st.accessMap
      Except.ok
        { Users := st.users
          Resources := st.resourcesMap.map Prod.snd
          Access := assembleEntries st.resourcesMap (userResourceRoles am2 []) [] }

/-- The separator `"::"` used by the access-map keys. -/
def sep2 : Str := [':', ':']

/-- All applicable `(resource, role)` targets of one `(user, role)` pair are
already present in the access map. -/
def Covered (pid : Str) (res : List (Str × Resource)) (u role : Str)
    (am : AccessList) : Prop :=
  ∀ p ∈ res, p.1 ≠ pid →
    containsStr (getApplicableResourceTypes role) p.2.RType = true →
    alookup am (accessKey u p.1 role) ≠ none

def c1pid : Str := projectResourceID (("p")).toList

def c1res : List (Str × Resource) :=
  [((("12345")).toList,
    { ID := (("12345")).toList, Name := (("my-vm")).toList, RType := (("vm")).toList,
      Location := (("us-central1-a")).toList, IAM := [] })]

def c1k : Str := accessKey (("alice@example.com")).toList (("12345")).toList (("roles/editor")).toList

def c1e : AccessEntry :=
  { UserEmail := (("alice@example.com")).toList, ResourceID := (("12345")).toList,
    ResourceName := (("my-vm")).toList, ResourceType := (("vm")).toList,
    Roles := [(("roles/editor")).toList] }

def c1am : AccessList :=
  [(accessKey (("alice@example.com")).toList c1pid (("roles/editor")).toList,
    { UserEmail := (("alice@example.com")).toList, ResourceID := c1pid,
      ResourceName := (("p")).toList, ResourceType := (("project")).toList,
      Roles := [(("roles/editor")).toList] }),
   (c1k, c1e)]

def c7pid : Str := projectResourceID (("p")).toList

def c7res : List (Str × Resource) :=
  [((("12345")).toList,
    { ID := (("12345")).toList, Name := (("my-vm")).toList, RType := (("vm")).toList,
      Location := (("us-central1-a")).toList, IAM := [] })]

def c7am : AccessList :=
  [(accessKey (("alice@example.com")).toList c7pid (("xroles/owner")).toList,
    { UserEmail := (("alice@example.com")).toList, ResourceID := c7pid,
      ResourceName := (("p")).toList, ResourceType := (("project")).toList,
      Roles := [(("xroles/owner")).toList] })]

def c7key : Str :=
  accessKey (("alice@example.com")).toList (("12345")).toList (("xroles/owner")).toList

def c9st : LoopState :=
  { resourcesMap := [], accessMap := [], users := [], validUsers := [] }

def c9row : PolicyRow :=
  { Resource := (("//run.googleapis.com/projects/p/locations/l/services/svc")).toList,
    Bindings := [] }

def c2vm : Resource :=
  { ID := (("12345")).toList, Name := (("my-vm")).toList, RType := (("vm")).toList,
    Location := (("us-central1-a")).toList, IAM := [] }

def c2row : PolicyRow :=
  { Resource := (("//compute.googleapis.com/projects/p/zones/us-central1-a/instances/my-vm")).toList,
    Bindings := [] }

/-- Loop invariant for completeness: the valid-user set and the user list
agree, every access entry's principal is in the valid-user set, and no access
entry's principal ends with a colon. -/
def C3Inv (st : LoopState) : Prop :=
  (∀ em : Str, memStr st.validUsers em = true ↔ ∃ u ∈ st.users, u.Email = em) ∧
  (∀ p ∈ st.accessMap, memStr st.validUsers p.2.UserEmail = true) ∧
  (∀ p ∈ st.accessMap, endsWithColon p.2.UserEmail = false)

def c3bs : List Binding :=
  [{ Role := (("roles/viewer")).toList, Members := [(("user:alice@x")).toList] }]

def c3rows : List PolicyRow :=
  [{ Resource := (("//compute.googleapis.com/projects/p/zones/z/instances/vm-1")).toList,
     Bindings := [{ Role := (("roles/x")).toList,
                    Members := [(("user:bob@x")).toList] }] }]

def c3badrows : List PolicyRow :=
  [{ Resource := (("b")).toList,
     Bindings := [{ Role := (("roles/x")).toList, Members := [(("user:a:")).toList] }] },
   { Resource := ((":b")).toList, Bindings := [] }]

/-- Loop invariant for principal uniqueness: the valid-user set and the user
list agree, and the user list carries pairwise-distinct identifiers. -/
def C8Inv (st : LoopState) : Prop :=
  (∀ em : Str, memStr st.validUsers em = true ↔ ∃ u ∈ st.users, u.Email = em) ∧
  (st.users.map User.Email).Nodup

def c8bs : List Binding :=
  [{ Role := (("roles/viewer")).toList,
     Members := [(("user:alice@x")).toList, (("serviceAccount:sa@p")).toList] }]

def c8rows : List PolicyRow :=
  [{ Resource := (("b")).toList,
     Bindings := [{ Role := (("roles/x")).toList,
                    Members := [(("group:alice@x")).toList, (("user:bob@x")).toList] }] }]

def c8dupbs : List Binding :=
  [{ Role := (("roles/viewer")).toList,
     Members := [(("user:a@x")).toList, (("group:a@x")).toList] }]

/-! ## Lemmas, claim theorems, witnesses and counterexamples -/

example : extractResourceType (("//compute.googleapis.com/projects/p/zones/z/instances/my-vm").toList)
    = ("vm").toList := by decide

example : extractResourceName (("//compute.googleapis.com/projects/p/zones/z/instances/my-vm").toList)
    = ("my-vm").toList := by decide

example : extractResourceType (("12345").toList) = ("other").toList := by decide

example : extractResourceName (("12345").toList) = ("12345").toList := by decide

example : extractResourceType (("//pubsub.googleapis.com/projects/p/topics/t").toList)
    = ("pubsub").toList := by decide

example : parseUser (("user:alice@example.com").toList)
    = { Email := ("alice@example.com").toList, UType := ("user").toList } := by decide

example : parseUser (("user:").toList)
    = { Email := ("user:").toList, UType := ("other").toList } := by decide

example : getApplicableResourceTypes (("roles/pubsub.publisher").toList) = [] := by decide

example : getApplicableResourceTypes (("xroles/owner").toList) ≠ [] := by decide

example : splitStr (("::").toList) (("a:::b").toList)
    = [("a").toList, (":b").toList] := by decide

theorem memStr_iff (l : List Str) (x : Str) : memStr l x = true ↔ x ∈ l := by
  induction l with
  | nil => simp [memStr]
  | cons s rest ih =>
    by_cases h : s = x
    · simp [memStr, h]
    · simp only [memStr, if_neg h, ih, List.mem_cons]
      constructor
      · exact Or.inr
      · rintro (rfl | hx)
        · exact absurd rfl h
        · exact hx

theorem alookup_append_some {α : Type} {l : List (Str × α)} {k : Str} {v : α}
    (t : List (Str × α)) (h : alookup l k = some v) :
    alookup (l ++ t) k = some v := by
  induction l with
  | nil => simp [alookup] at h
  | cons p rest ih =>
    by_cases hp : p.1 = k
    · simpa [alookup, hp] using h
    · simp only [alookup, if_neg hp] at h
      simpa [alookup, hp] using ih h

theorem alookup_append_last {α : Type} {l : List (Str × α)} {k : Str}
    (v : α) (h : alookup l k = none) :
    alookup (l ++ [(k, v)]) k = some v := by
  induction l with
  | nil => simp [alookup]
  | cons p rest ih =>
    by_cases hp : p.1 = k
    · simp [alookup, hp] at h
    · simp only [alookup, if_neg hp] at h
      simpa [alookup, hp] using ih h

theorem alookup_mem {α : Type} {l : List (Str × α)} {k : Str} {v : α}
    (h : alookup l k = some v) : (k, v) ∈ l := by
  induction l with
  | nil => simp [alookup] at h
  | cons p rest ih =>
    by_cases hp : p.1 = k
    · simp only [alookup, if_pos hp, Option.some_inj] at h
      have hkv : (k, v) = p := by
        cases p
        simp_all
      rw [hkv]
      exact List.mem_cons_self _ _
    · simp only [alookup, if_neg hp] at h
      exact List.mem_cons_of_mem _ (ih h)

theorem alookup_none_no_key {α : Type} {l : List (Str × α)} {k : Str}
    (h : alookup l k = none) : ∀ p ∈ l, p.1 ≠ k := by
  induction l with
  | nil => intro p hp; simp at hp
  | cons q rest ih =>
    by_cases hq : q.1 = k
    · simp [alookup, hq] at h
    · simp only [alookup, if_neg hq] at h
      intro p hp
      rcases List.mem_cons.mp hp with rfl | hp'
      · exact hq
      · exact ih h p hp'

theorem countKey_append {α : Type} (l t : List (Str × α)) (k : Str) :
    countKey (l ++ t) k = countKey l k + countKey t k := by
  simp [countKey, List.filter_append]

theorem countKey_singleton_ne {α : Type} {k k' : Str} (v : α) (h : k' ≠ k) :
    countKey [(k', v)] k = 0 := by
  simp [countKey, h]

theorem aappend_keys {acc : List (Str × List Str)} {k v : Str}
    {q : Str × List Str} (hq : q ∈ aappend acc k v) :
    q.1 = k ∨ ∃ q' ∈ acc, q.1 = q'.1 := by
  induction acc with
  | nil =>
    simp only [aappend, List.mem_singleton] at hq
    subst hq; exact Or.inl rfl
  | cons p rest ih =>
    by_cases hp : p.1 = k
    · simp only [aappend, if_pos hp] at hq
      rcases List.mem_cons.mp hq with rfl | hq'
      · exact Or.inl hp
      · exact Or.inr ⟨q, List.mem_cons_of_mem _ hq', rfl⟩
    · simp only [aappend, if_neg hp] at hq
      rcases List.mem_cons.mp hq with rfl | hq'
      · exact Or.inr ⟨q, List.mem_cons_self _ _, rfl⟩
      · rcases ih hq' with h | ⟨q', hq'', h⟩
        · exact Or.inl h
        · exact Or.inr ⟨q', List.mem_cons_of_mem _ hq'', h⟩

theorem hasPfx_extend {p s : Str} (t : Str) (h : hasPfx p s = true) :
    hasPfx p (s ++ t) = true := by
  induction p generalizing s with
  | nil => simp [hasPfx]
  | cons a ps ih =>
    cases s with
    | nil => simp [hasPfx] at h
    | cons c cs =>
      by_cases hac : a = c
      · simp only [hasPfx, if_pos hac] at h
        simpa [hasPfx, hac] using ih h
      · simp [hasPfx, hac] at h

theorem hasPfx_self_append (p t : Str) : hasPfx p (p ++ t) = true := by
  induction p with
  | nil => simp [hasPfx]
  | cons a ps ih => simpa [hasPfx] using ih

theorem hasSub_mid (x y : Str) (c : Char) (cs : Str) :
    hasSub (x ++ (c :: cs) ++ y) (c :: cs) = true := by
  induction x with
  | nil =>
    have h := hasPfx_self_append (c :: cs) y
    simp only [List.cons_append] at h
    simp [hasSub, h]
  | cons a x' ih =>
    have hgoal : (a :: x') ++ (c :: cs) ++ y = a :: (x' ++ (c :: cs) ++ y) := by simp
    rw [hgoal]
    have hstep : hasSub (a :: (x' ++ (c :: cs) ++ y)) (c :: cs)
        = (hasPfx (c :: cs) (a :: (x' ++ (c :: cs) ++ y))
            || hasSub (x' ++ (c :: cs) ++ y) (c :: cs)) := rfl
    rw [hstep, ih, Bool.or_true]

theorem sep2_eq : (("::")).toList = sep2 := rfl

theorem splitAux_length_pos (sep : Str) :
    ∀ (fuel : Nat) (s acc : Str), 1 ≤ (splitAux sep fuel s acc).length := by
  intro fuel
  induction fuel with
  | zero => intro s acc; cases s <;> simp [splitAux]
  | succ n ih =>
    intro s acc
    cases s with
    | nil => simp [splitAux]
    | cons c rest =>
      simp only [splitAux]
      split
      · simp
      · exact ih _ _

theorem splitAux_fuel_irrel (sep : Str) :
    ∀ (f1 f2 : Nat) (s acc : Str), s.length ≤ f1 → s.length ≤ f2 →
      splitAux sep f1 s acc = splitAux sep f2 s acc := by
  intro f1
  induction f1 with
  | zero =>
    intro f2 s acc h1 h2
    have hs : s = [] := List.length_eq_zero.mp (Nat.le_zero.mp h1)
    subst hs
    cases f2 <;> simp [splitAux]
  | succ n ih =>
    intro f2 s acc h1 h2
    cases s with
    | nil => cases f2 <;> simp [splitAux]
    | cons c rest =>
      cases f2 with
      | zero => simp at h2
      | succ m =>
        simp only [List.length_cons, Nat.succ_le_succ_iff] at h1 h2
        simp only [splitAux]
        split
        · have hd : (List.drop (sep.length - 1) rest).length ≤ rest.length := by
            simp [List.length_drop]
          rw [ih m (List.drop (sep.length - 1) rest) [] (le_trans hd h1) (le_trans hd h2)]
        · exact ih m rest (acc ++ [c]) h1 h2

theorem splitAux_two_le {c : Char} {cs : Str} :
    ∀ (fuel : Nat) (t acc : Str), hasSub t (c :: cs) = true → t.length ≤ fuel →
      2 ≤ (splitAux (c :: cs) fuel t acc).length := by
  intro fuel
  induction fuel with
  | zero =>
    intro t acc hs hf
    have ht : t = [] := List.length_eq_zero.mp (Nat.le_zero.mp hf)
    subst ht
    simp [hasSub, hasPfx] at hs
  | succ n ih =>
    intro t acc hs hf
    cases t with
    | nil => simp [hasSub, hasPfx] at hs
    | cons d rest =>
      simp only [splitAux]
      by_cases hpfx : hasPfx (c :: cs) (d :: rest) = true
      · rw [if_pos ⟨by simp, hpfx⟩]
        have h := splitAux_length_pos (c :: cs) n (List.drop ((c :: cs).length - 1) rest) []
        calc 2 = 1 + 1 := rfl
        _ ≤ (splitAux (c :: cs) n (List.drop ((c :: cs).length - 1) rest) []).length + 1 :=
          Nat.add_le_add_right h 1
        _ = (acc :: splitAux (c :: cs) n (List.drop ((c :: cs).length - 1) rest) []).length :=
          (List.length_cons _ _).symm
      · rw [if_neg (fun hand => hpfx hand.2)]
        have hpfx' : hasPfx (c :: cs) (d :: rest) = false := by
          cases hx : hasPfx (c :: cs) (d :: rest)
          · rfl
          · exact absurd hx hpfx
        have hs' : hasSub rest (c :: cs) = true := by
          simpa [hasSub, hpfx'] using hs
        have hf' : rest.length ≤ n := by
          simpa [Nat.succ_le_succ_iff] using hf
        exact ih rest (acc ++ [d]) hs' hf'

theorem splitAux_three_le :
    ∀ (fuel : Nat) (E R acc : Str), hasSub E sep2 = true →
      (E ++ sep2 ++ R).length ≤ fuel →
      3 ≤ (splitAux sep2 fuel (E ++ sep2 ++ R) acc).length := by
  intro fuel
  induction fuel with
  | zero =>
    intro E R acc hs hf
    simp [sep2] at hf
  | succ n ih =>
    intro E R acc hs hf
    cases E with
    | nil => simp [hasSub, hasPfx, sep2] at hs
    | cons c E' =>
      rw [show (c :: E') ++ sep2 ++ R = c :: (E' ++ sep2 ++ R) by simp]
      simp only [splitAux]
      by_cases hpfx : hasPfx sep2 (c :: (E' ++ sep2 ++ R)) = true
      · rw [if_pos ⟨by simp [sep2], hpfx⟩]
        cases E' with
        | nil => simp [hasSub, hasPfx, sep2] at hs
        | cons d E'' =>
          have hdrop : List.drop (sep2.length - 1) ((d :: E'') ++ sep2 ++ R)
              = E'' ++ sep2 ++ R := by
            simp [sep2]
          rw [hdrop]
          have hsub : hasSub (E'' ++ sep2 ++ R) (':' :: [':']) = true := by
            exact hasSub_mid E'' R ':' [':']
          have hlen : (E'' ++ sep2 ++ R).length ≤ n := by
            simp only [sep2, List.length_append, List.length_cons] at hf ⊢
            omega
          have h2 := @splitAux_two_le ':' [':'] n (E'' ++ sep2 ++ R) [] hsub hlen
          rw [show (':' :: [':'] : Str) = sep2 from rfl] at h2
          simp only [List.length_cons]
          omega
      · rw [if_neg (fun hand => hpfx hand.2)]
        have hp : hasPfx sep2 (c :: E') = false := by
          cases hx : hasPfx sep2 (c :: E')
          · rfl
          · exfalso
            apply hpfx
            have := hasPfx_extend (sep2 ++ R) hx
            simpa using this
        have hs' : hasSub E' sep2 = true := by
          simpa [hasSub, hp] using hs
        have hf' : (E' ++ sep2 ++ R).length ≤ n := by
          simp only [List.length_cons, List.length_append] at hf ⊢
          omega
        exact ih E' R (acc ++ [c]) hs' hf'

theorem splitAux_concat :
    ∀ (fuel : Nat) (E R acc : Str), hasSub E sep2 = false → endsWithColon E = false →
      (E ++ sep2 ++ R).length ≤ fuel →
      splitAux sep2 fuel (E ++ sep2 ++ R) acc = (acc ++ E) :: splitStr sep2 R := by
  intro fuel
  induction fuel with
  | zero =>
    intro E R acc h1 h2 hf
    simp [sep2] at hf
  | succ n ih =>
    intro E R acc h1 h2 hf
    cases E with
    | nil =>
      rw [show ([] : Str) ++ sep2 ++ R = ':' :: (':' :: R) by simp [sep2]]
      simp only [splitAux]
      rw [if_pos ⟨by simp [sep2], by simp [sep2, hasPfx]⟩]
      have hdrop : List.drop (sep2.length - 1) (':' :: R) = R := by simp [sep2]
      rw [hdrop]
      have hR : R.length ≤ n := by
        simp only [sep2] at hf
        simp at hf
        omega
      rw [splitAux_fuel_irrel sep2 n R.length R [] hR (le_refl _)]
      simp [splitStr]
    | cons c E' =>
      have hpe : hasPfx sep2 (c :: E') = false ∧ hasSub E' sep2 = false := by
        have : hasSub (c :: E') sep2
            = (hasPfx sep2 (c :: E') || hasSub E' sep2) := rfl
        rw [this] at h1
        exact Bool.or_eq_false_iff.mp h1
      have hp : hasPfx sep2 (c :: (E' ++ sep2 ++ R)) = false := by
        by_cases hc : (':' : Char) = c
        · cases E' with
          | nil =>
            exfalso
            have : endsWithColon [c] = true := by
              simp [endsWithColon, hc.symm]
            rw [h2] at this
            exact Bool.false_ne_true this
          | cons d E'' =>
            by_cases hd : (':' : Char) = d
            · exfalso
              have : hasPfx sep2 (c :: d :: E'') = true := by
                show (if ':' = c then (if ':' = d then hasPfx [] E'' else false) else false) = true
                rw [if_pos hc, if_pos hd]
                rfl
              rw [hpe.1] at this
              exact Bool.false_ne_true this
            · simp [sep2, hasPfx, hc, hd]
        · simp [sep2, hasPfx, hc]
      rw [show (c :: E') ++ sep2 ++ R = c :: (E' ++ sep2 ++ R) by simp]
      simp only [splitAux]
      rw [if_neg (fun hand => by rw [hp] at hand; exact Bool.false_ne_true hand.2)]
      have h2' : endsWithColon E' = false := by
        cases E' with
        | nil => rfl
        | cons d E'' => simpa [endsWithColon] using h2
      have hf' : (E' ++ sep2 ++ R).length ≤ n := by
        simp only [List.length_cons, List.length_append] at hf ⊢
        omega
      rw [ih E' R (acc ++ [c]) hpe.2 h2' hf']
      simp

theorem splitAux_singleton (sep : Str) :
    ∀ (fuel : Nat) (s acc x : Str), splitAux sep fuel s acc = [x] → x = acc ++ s := by
  intro fuel
  induction fuel with
  | zero =>
    intro s acc x h
    cases s with
    | nil =>
      simp [splitAux] at h
      simp [h.symm]
    | cons c rest =>
      simp [splitAux] at h
      exact h.symm
  | succ n ih =>
    intro s acc x h
    cases s with
    | nil =>
      simp [splitAux] at h
      simp [h.symm]
    | cons c rest =>
      simp only [splitAux] at h
      split at h
      · have hpos := splitAux_length_pos sep n (List.drop (sep.length - 1) rest) []
        have : (acc :: splitAux sep n (List.drop (sep.length - 1) rest) []).length = 1 := by
          rw [h]
          rfl
        simp only [List.length_cons] at this
        omega
      · have := ih rest (acc ++ [c]) x h
        rw [this]
        simp

/-- If a grouping key `E ++ "::" ++ R` splits into exactly two parts and `E`
does not end with a colon, then the two parts are exactly `E` and `R`. -/
theorem split_group_eq (E R : Str) (h2 : endsWithColon E = false)
    (hlen : (splitStr sep2 (E ++ sep2 ++ R)).length = 2) :
    splitStr sep2 (E ++ sep2 ++ R) = [E, R] := by
  by_cases h1 : hasSub E sep2 = true
  · exfalso
    have h3 := splitAux_three_le (E ++ sep2 ++ R).length E R [] h1 (le_refl _)
    have : splitStr sep2 (E ++ sep2 ++ R)
        = splitAux sep2 (E ++ sep2 ++ R).length (E ++ sep2 ++ R) [] := rfl
    rw [this] at hlen
    omega
  · have h1' : hasSub E sep2 = false := by
      cases hx : hasSub E sep2
      · rfl
      · exact absurd hx h1
    have hc := splitAux_concat (E ++ sep2 ++ R).length E R [] h1' h2 (le_refl _)
    have hs : splitStr sep2 (E ++ sep2 ++ R)
        = splitAux sep2 (E ++ sep2 ++ R).length (E ++ sep2 ++ R) [] := rfl
    rw [hs, hc] at hlen ⊢
    simp only [List.nil_append]
    simp only [List.length_cons] at hlen
    have hone : (splitStr sep2 R).length = 1 := by omega
    obtain ⟨x, hx⟩ := List.length_eq_one.mp hone
    have hxR : x = R := by
      have := splitAux_singleton sep2 R.length R [] x hx
      simpa using this
    rw [hx, hxR]

theorem inheritStep_preserves {pid u role k : Str} {v : AccessEntry} :
    ∀ (res : List (Str × Resource)) (am : AccessList), alookup am k = some v →
      alookup (inheritStep pid u role res am) k = some v ∧
      countKey (inheritStep pid u role res am) k = countKey am k := by
  intro res
  induction res with
  | nil => intro am h; exact ⟨h, rfl⟩
  | cons p rest ih =>
    obtain ⟨rid, r⟩ := p
    intro am h
    simp only [inheritStep]
    by_cases h1 : rid = pid
    · rw [if_pos h1]
      exact ih am h
    · rw [if_neg h1]
      by_cases h2 : containsStr (getApplicableResourceTypes role) r.RType = true
      · rw [if_pos h2]
        by_cases h3 : alookup am (accessKey u rid role) = none
        · rw [if_pos h3]
          have hkne : accessKey u rid role ≠ k := by
            intro he
            rw [he, h] at h3
            exact Option.noConfusion h3
          obtain ⟨ha, hc⟩ := ih (am ++ [(accessKey u rid role,
            { UserEmail := u, ResourceID := rid, ResourceName := r.Name,
              ResourceType := r.RType, Roles := [role] })]) (alookup_append_some _ h)
          refine ⟨ha, ?_⟩
          rw [hc, countKey_append, countKey_singleton_ne _ hkne]
          omega
        · rw [if_neg h3]
          exact ih am h
      · rw [if_neg h2]
        exact ih am h

theorem resolveRoles_preserves {pid u k : Str} {v : AccessEntry}
    (res : List (Str × Resource)) :
    ∀ (roles : List Str) (am : AccessList), alookup am k = some v →
      alookup (resolveRoles pid res u roles am) k = some v ∧
      countKey (resolveRoles pid res u roles am) k = countKey am k := by
  intro roles
  induction roles with
  | nil => intro am h; exact ⟨h, rfl⟩
  | cons role rs ih =>
    intro am h
    simp only [resolveRoles]
    obtain ⟨ha, hc⟩ := inheritStep_preserves res am h
    obtain ⟨ha2, hc2⟩ := ih _ ha
    exact ⟨ha2, hc2.trans hc⟩

theorem resolveList_preserves {pid k : Str} {v : AccessEntry}
    (res : List (Str × Resource)) :
    ∀ (pairs : List (Str × List Str)) (am : AccessList), alookup am k = some v →
      alookup (resolveList pid res pairs am) k = some v ∧
      countKey (resolveList pid res pairs am) k = countKey am k := by
  intro pairs
  induction pairs with
  | nil => intro am h; exact ⟨h, rfl⟩
  | cons q rest ih =>
    obtain ⟨u, roles⟩ := q
    intro am h
    simp only [resolveList]
    obtain ⟨ha, hc⟩ := resolveRoles_preserves res roles am h
    obtain ⟨ha2, hc2⟩ := ih _ ha
    exact ⟨ha2, hc2.trans hc⟩

theorem inheritStep_lookup_isSome {pid u role k : Str} :
    ∀ (res : List (Str × Resource)) (am : AccessList), alookup am k ≠ none →
      alookup (inheritStep pid u role res am) k ≠ none := by
  intro res am h
  obtain ⟨v, hv⟩ := Option.ne_none_iff_exists'.mp h
  rw [(inheritStep_preserves res am hv).1]
  exact Option.noConfusion

theorem resolveRoles_lookup_isSome {pid u k : Str} (res : List (Str × Resource)) :
    ∀ (roles : List Str) (am : AccessList), alookup am k ≠ none →
      alookup (resolveRoles pid res u roles am) k ≠ none := by
  intro roles am h
  obtain ⟨v, hv⟩ := Option.ne_none_iff_exists'.mp h
  rw [(resolveRoles_preserves res roles am hv).1]
  exact Option.noConfusion

theorem resolveList_lookup_isSome {pid k : Str} (res : List (Str × Resource)) :
    ∀ (pairs : List (Str × List Str)) (am : AccessList), alookup am k ≠ none →
      alookup (resolveList pid res pairs am) k ≠ none := by
  intro pairs am h
  obtain ⟨v, hv⟩ := Option.ne_none_iff_exists'.mp h
  rw [(resolveList_preserves res pairs am hv).1]
  exact Option.noConfusion

theorem pa_append (pid : Str) :
    ∀ (l1 l2 : AccessList) (acc : List (Str × List Str)),
      projectAccessByUser pid (l1 ++ l2) acc
        = projectAccessByUser pid l2 (projectAccessByUser pid l1 acc) := by
  intro l1
  induction l1 with
  | nil => intro l2 acc; rfl
  | cons p rest ih =>
    intro l2 acc
    simp only [List.cons_append, projectAccessByUser]
    exact ih l2 _

theorem pa_skip_entry (pid : Str) (k : Str) (e : AccessEntry)
    (acc : List (Str × List Str)) (h : e.ResourceID ≠ pid) :
    projectAccessByUser pid [(k, e)] acc = acc := by
  simp [projectAccessByUser, h]

theorem inheritStep_pa {pid u role : Str} :
    ∀ (res : List (Str × Resource)) (am : AccessList) (acc : List (Str × List Str)),
      projectAccessByUser pid (inheritStep pid u role res am) acc
        = projectAccessByUser pid am acc := by
  intro res
  induction res with
  | nil => intro am acc; rfl
  | cons p rest ih =>
    obtain ⟨rid, r⟩ := p
    intro am acc
    simp only [inheritStep]
    by_cases h1 : rid = pid
    · rw [if_pos h1]
      exact ih am acc
    · rw [if_neg h1]
      by_cases h2 : containsStr (getApplicableResourceTypes role) r.RType = true
      · rw [if_pos h2]
        by_cases h3 : alookup am (accessKey u rid role) = none
        · rw [if_pos h3, ih _ acc, pa_append, pa_skip_entry pid _ _ _ h1]
        · rw [if_neg h3]
          exact ih am acc
      · rw [if_neg h2]
        exact ih am acc

theorem resolveRoles_pa {pid u : Str} (res : List (Str × Resource)) :
    ∀ (roles : List Str) (am : AccessList) (acc : List (Str × List Str)),
      projectAccessByUser pid (resolveRoles pid res u roles am) acc
        = projectAccessByUser pid am acc := by
  intro roles
  induction roles with
  | nil => intro am acc; rfl
  | cons role rs ih =>
    intro am acc
    simp only [resolveRoles]
    rw [ih _ acc, inheritStep_pa res am acc]

theorem resolveList_pa {pid : Str} (res : List (Str × Resource)) :
    ∀ (pairs : List (Str × List Str)) (am : AccessList) (acc : List (Str × List Str)),
      projectAccessByUser pid (resolveList pid res pairs am) acc
        = projectAccessByUser pid am acc := by
  intro pairs
  induction pairs with
  | nil => intro am acc; rfl
  | cons q rest ih =>
    obtain ⟨u, roles⟩ := q
    intro am acc
    simp only [resolveList]
    rw [ih _ acc, resolveRoles_pa res roles am acc]

theorem Covered_of_lookup_mono {pid : Str} {res : List (Str × Resource)}
    {u role : Str} {am am' : AccessList}
    (h : ∀ k, alookup am k ≠ none → alookup am' k ≠ none)
    (hc : Covered pid res u role am) : Covered pid res u role am' :=
  fun p hp h1 h2 => h _ (hc p hp h1 h2)

theorem inheritStep_covers {pid u role : Str} :
    ∀ (res : List (Str × Resource)) (am : AccessList),
      Covered pid res u role (inheritStep pid u role res am) := by
  intro res
  induction res with
  | nil => intro am p hp; simp at hp
  | cons q rest ih =>
    obtain ⟨rid, r⟩ := q
    intro am p hp hne happ
    rcases List.mem_cons.mp hp with rfl | hp'
    · -- the head resource itself
      simp only [inheritStep]
      rw [if_neg hne, if_pos happ]
      by_cases h3 : alookup am (accessKey u rid role) = none
      · rw [if_pos h3]
        apply inheritStep_lookup_isSome rest
        rw [alookup_append_last _ h3]
        exact Option.noConfusion
      · rw [if_neg h3]
        exact inheritStep_lookup_isSome rest am h3
    · -- a later resource: covered by the recursive call
      simp only [inheritStep]
      by_cases h1 : rid = pid
      · rw [if_pos h1]
        exact ih am p hp' hne happ
      · rw [if_neg h1]
        by_cases h2 : containsStr (getApplicableResourceTypes role) r.RType = true
        · rw [if_pos h2]
          by_cases h3 : alookup am (accessKey u rid role) = none
          · rw [if_pos h3]
            exact ih _ p hp' hne happ
          · rw [if_neg h3]
            exact ih am p hp' hne happ
        · rw [if_neg h2]
          exact ih am p hp' hne happ

theorem inheritStep_fix {pid u role : Str} :
    ∀ (res : List (Str × Resource)) (am : AccessList),
      Covered pid res u role am → inheritStep pid u role res am = am := by
  intro res
  induction res with
  | nil => intro am _; rfl
  | cons q rest ih =>
    obtain ⟨rid, r⟩ := q
    intro am h
    have hrest : Covered pid rest u role am :=
      fun p hp => h p (List.mem_cons_of_mem _ hp)
    simp only [inheritStep]
    by_cases h1 : rid = pid
    · rw [if_pos h1]
      exact ih am hrest
    · rw [if_neg h1]
      by_cases h2 : containsStr (getApplicableResourceTypes role) r.RType = true
      · rw [if_pos h2]
        have h3 : alookup am (accessKey u rid role) ≠ none :=
          h (rid, r) (List.mem_cons_self _ _) h1 h2
        rw [if_neg h3]
        exact ih am hrest
      · rw [if_neg h2]
        exact ih am hrest

theorem resolveRoles_covers {pid u : Str} (res : List (Str × Resource)) :
    ∀ (roles : List Str) (am : AccessList), ∀ role ∈ roles,
      Covered pid res u role (resolveRoles pid res u roles am) := by
  intro roles
  induction roles with
  | nil => intro am role hrole; simp at hrole
  | cons r0 rs ih =>
    intro am role hrole
    rcases List.mem_cons.mp hrole with rfl | hrole'
    · simp only [resolveRoles]
      exact Covered_of_lookup_mono
        (fun k => resolveRoles_lookup_isSome res rs _)
        (inheritStep_covers res am)
    · simp only [resolveRoles]
      exact ih _ role hrole'

theorem resolveRoles_fix {pid u : Str} (res : List (Str × Resource)) :
    ∀ (roles : List Str) (am : AccessList),
      (∀ role ∈ roles, Covered pid res u role am) →
      resolveRoles pid res u roles am = am := by
  intro roles
  induction roles with
  | nil => intro am _; rfl
  | cons r0 rs ih =>
    intro am h
    simp only [resolveRoles]
    rw [inheritStep_fix res am (h r0 (List.mem_cons_self _ _))]
    exact ih am (fun role hrole => h role (List.mem_cons_of_mem _ hrole))

theorem resolveList_covers {pid : Str} (res : List (Str × Resource)) :
    ∀ (pairs : List (Str × List Str)) (am : AccessList),
      ∀ q ∈ pairs, ∀ role ∈ q.2,
        Covered pid res q.1 role (resolveList pid res pairs am) := by
  intro pairs
  induction pairs with
  | nil => intro am q hq; simp at hq
  | cons q0 rest ih =>
    obtain ⟨u, roles⟩ := q0
    intro am q hq role hrole
    rcases List.mem_cons.mp hq with rfl | hq'
    · simp only [resolveList]
      exact Covered_of_lookup_mono
        (fun k => resolveList_lookup_isSome res rest _)
        (resolveRoles_covers res roles am role hrole)
    · simp only [resolveList]
      exact ih _ q hq' role hrole

theorem resolveList_fix {pid : Str} (res : List (Str × Resource)) :
    ∀ (pairs : List (Str × List Str)) (am : AccessList),
      (∀ q ∈ pairs, ∀ role ∈ q.2, Covered pid res q.1 role am) →
      resolveList pid res pairs am = am := by
  intro pairs
  induction pairs with
  | nil => intro am _; rfl
  | cons q0 rest ih =>
    obtain ⟨u, roles⟩ := q0
    intro am h
    simp only [resolveList]
    rw [resolveRoles_fix res roles am
      (fun role hrole => h (u, roles) (List.mem_cons_self _ _) role hrole)]
    exact ih am (fun q hq => h q (List.mem_cons_of_mem _ hq))

/-- C1: for every (principal, resource, role) triple for which a direct
AccessFact is recorded in the access map, the Inheritance Resolver never adds
an inherited AccessFact with that exact key (the number of entries stored
under that key is unchanged) and the direct fact is never removed or replaced
(the lookup still returns exactly the direct entry), even when the
role-applicability table would otherwise generate the inherited fact. -/
theorem c1_direct_facts_never_overridden (pid : Str) (res : List (Str × Resource))
    (am : AccessList) (k : Str) (e : AccessEntry) (h : alookup am k = some e) :
    alookup (resolveInheritance pid res am) k = some e ∧
    countKey (resolveInheritance pid res am) k = countKey am k := by
  unfold resolveInheritance
  exact resolveList_preserves res _ am h

/-- Witness for C1: a project whose `roles/editor` grant for
`alice@example.com` is applicable to the tracked VM `12345`, where a direct
`roles/editor` fact on the VM already exists: the direct fact survives
unchanged and no second entry under its key appears. -/
theorem c1_witness :
    (alookup c1am c1k = some c1e) ∧
    (alookup (resolveInheritance c1pid c1res c1am) c1k = some c1e ∧
     countKey (resolveInheritance c1pid c1res c1am) c1k = countKey c1am c1k) :=
  ⟨by decide, c1_direct_facts_never_overridden c1pid c1res c1am c1k c1e (by decide)⟩

/-- C6: the Inheritance Resolver is idempotent: running the
inheritance-expansion step twice over the same project-scoped direct-fact
set and resource set produces exactly the same fact set as running it once. -/
theorem c6_resolveInheritance_idempotent (pid : Str) (res : List (Str × Resource))
    (am : AccessList) :
    resolveInheritance pid res (resolveInheritance pid res am)
      = resolveInheritance pid res am := by
  unfold resolveInheritance
  rw [resolveList_pa res (projectAccessByUser pid am []) am []]
  exact resolveList_fix res _ _ (resolveList_covers res _ am)

/-- C4: if the principal-directory fetch fails, or the policy-search stream
fails at any point, the whole `GetAccessMatrix` call aborts and returns an
error (wrapped with the stage that failed); there is no partial-success mode
for these two sources. -/
theorem c4_fatal_directory_and_stream_failures :
    (∀ (pid e : Str) (kr : Except Str (List Resource)) (st : StreamInput),
        GetAccessMatrix pid (Except.error e) kr st
          = Except.error ((("failed to get IAM policy: ")).toList ++ e)) ∧
    (∀ (pid : Str) (bs : List Binding) (kr : Except Str (List Resource))
        (rows : List PolicyRow) (e : Str),
        GetAccessMatrix pid (Except.ok bs) kr { rows := rows, streamErr := some e }
          = Except.error ((("failed to iterate policies: ")).toList ++ e)) := by
  constructor
  · intro pid e kr st
    rfl
  · intro pid bs kr rows e
    cases kr <;> rfl

/-- C5 counterexample: with the GKE backend failing and the VM backend
returning one instance, `GetResources` returns an error and none of the VM
resources, refuting the claim that resources from non-failing backends are
still returned. -/
theorem c5_counterexample :
    GetResources (Except.error (("boom")).toList)
      (Except.ok [{ ID := (("12345")).toList, Name := (("my-vm")).toList,
                    RType := (("vm")).toList, Location := (("us-central1-a")).toList,
                    IAM := [] }])
      (Except.ok [])
      = Except.error (("failed to get GKE clusters: boom")).toList := rfl

/-- C5 (amended): a failure of any one inventory backend aborts the whole
`GetResources` call with a wrapped error (no partial inventory across
backends); at the aggregation level `GetAccessMatrix` downgrades a
known-resource failure to a warning and behaves exactly as if the known
resource list were empty. -/
theorem c5_backend_failure_aborts_inventory :
    (∀ (e : Str) (vms runs : Except Str (List Resource)),
        GetResources (Except.error e) vms runs
          = Except.error ((("failed to get GKE clusters: ")).toList ++ e)) ∧
    (∀ (g : List Resource) (e : Str) (runs : Except Str (List Resource)),
        GetResources (Except.ok g) (Except.error e) runs
          = Except.error ((("failed to get VMs: ")).toList ++ e)) ∧
    (∀ (g v : List Resource) (e : Str),
        GetResources (Except.ok g) (Except.ok v) (Except.error e)
          = Except.error ((("failed to get Cloud Run services: ")).toList ++ e)) ∧
    (∀ (pid : Str) (pp : Except Str (List Binding)) (e : Str) (st : StreamInput),
        GetAccessMatrix pid pp (Except.error e) st
          = GetAccessMatrix pid pp (Except.ok []) st) := by
  refine ⟨fun e vms runs => rfl, fun g e runs => rfl, fun g v e => rfl, ?_⟩
  intro pid pp e st
  cases pp <;> rfl

/-- C7 counterexample: the role `"xroles/owner"` has none of the nine listed
role prefixes as a prefix, yet its applicable-kind set is non-empty (the
source tests substring containment, not prefixes), and a project-scoped
`"xroles/owner"` grant does synthesize an inherited fact on a VM. -/
theorem c7_counterexample :
    (hasPfx (("roles/owner")).toList (("xroles/owner")).toList = false ∧
     hasPfx (("roles/editor")).toList (("xroles/owner")).toList = false ∧
     hasPfx (("roles/viewer")).toList (("xroles/owner")).toList = false ∧
     hasPfx (("roles/storage.")).toList (("xroles/owner")).toList = false ∧
     hasPfx (("roles/compute.")).toList (("xroles/owner")).toList = false ∧
     hasPfx (("roles/container.")).toList (("xroles/owner")).toList = false ∧
     hasPfx (("roles/run.")).toList (("xroles/owner")).toList = false ∧
     hasPfx (("roles/bigquery.")).toList (("xroles/owner")).toList = false ∧
     hasPfx (("roles/iam.")).toList (("xroles/owner")).toList = false) ∧
    getApplicableResourceTypes (("xroles/owner")).toList ≠ [] ∧
    alookup (resolveInheritance c7pid c7res c7am) c7key ≠ none := by
  refine ⟨by decide, by decide, by decide⟩

/-- C7 (amended): for every role that does not contain any of the nine listed
substrings, the applicable-kind set is empty and the inheritance step
synthesizes no fact for any resource. -/
theorem c7_no_substring_no_cascade (role : Str)
    (h : hasSub role (("roles/owner")).toList = false ∧
         hasSub role (("roles/editor")).toList = false ∧
         hasSub role (("roles/viewer")).toList = false ∧
         hasSub role (("roles/storage.")).toList = false ∧
         hasSub role (("roles/compute.")).toList = false ∧
         hasSub role (("roles/container.")).toList = false ∧
         hasSub role (("roles/run.")).toList = false ∧
         hasSub role (("roles/bigquery.")).toList = false ∧
         hasSub role (("roles/iam.")).toList = false) :
    getApplicableResourceTypes role = [] ∧
    ∀ (pid u : Str) (res : List (Str × Resource)) (am : AccessList),
      inheritStep pid u role res am = am := by
  obtain ⟨h1, h2, h3, h4, h5, h6, h7, h8, h9⟩ := h
  have happ : getApplicableResourceTypes role = [] := by
    unfold getApplicableResourceTypes
    rw [h1, h2, h3, h4, h5, h6, h7, h8, h9]
    simp
  refine ⟨happ, ?_⟩
  intro pid u res am
  induction res generalizing am with
  | nil => rfl
  | cons p rest ih =>
    obtain ⟨rid, r⟩ := p
    simp only [inheritStep, happ]
    by_cases hr : rid = pid
    · rw [if_pos hr]
      exact ih am
    · rw [if_neg hr]
      rw [if_neg (by simp [containsStr])]
      exact ih am

/-- Witness for C7 (amended), at the spec scenario role
`roles/pubsub.publisher` held at project scope: no applicable kinds, and the
inheritance step over a tracked VM adds nothing. -/
theorem c7_witness :
    (hasSub (("roles/pubsub.publisher")).toList (("roles/owner")).toList = false ∧
     hasSub (("roles/pubsub.publisher")).toList (("roles/editor")).toList = false ∧
     hasSub (("roles/pubsub.publisher")).toList (("roles/viewer")).toList = false ∧
     hasSub (("roles/pubsub.publisher")).toList (("roles/storage.")).toList = false ∧
     hasSub (("roles/pubsub.publisher")).toList (("roles/compute.")).toList = false ∧
     hasSub (("roles/pubsub.publisher")).toList (("roles/container.")).toList = false ∧
     hasSub (("roles/pubsub.publisher")).toList (("roles/run.")).toList = false ∧
     hasSub (("roles/pubsub.publisher")).toList (("roles/bigquery.")).toList = false ∧
     hasSub (("roles/pubsub.publisher")).toList (("roles/iam.")).toList = false) ∧
    getApplicableResourceTypes (("roles/pubsub.publisher")).toList = [] ∧
    inheritStep c7pid (("alice@example.com")).toList
      (("roles/pubsub.publisher")).toList c7res c7am = c7am :=
  ⟨by decide,
   (c7_no_substring_no_cascade _ (by decide)).1,
   (c7_no_substring_no_cascade _ (by decide)).2 c7pid (("alice@example.com")).toList c7res c7am⟩

theorem processMember_rmap (rid rname rtype role : Str) (st : LoopState) (m : Str) :
    (processMember rid rname rtype role st m).resourcesMap = st.resourcesMap := by
  unfold processMember
  dsimp only
  split <;> split <;> rfl

theorem processMembers_rmap (rid rname rtype role : Str) :
    ∀ (ms : List Str) (st : LoopState),
      (processMembers rid rname rtype role ms st).resourcesMap = st.resourcesMap := by
  intro ms
  induction ms with
  | nil => intro st; rfl
  | cons m rest ih =>
    intro st
    simp only [processMembers]
    rw [ih _, processMember_rmap]

theorem processBindings_rmap (rid rname rtype : Str) :
    ∀ (bs : List Binding) (st : LoopState),
      (processBindings rid rname rtype bs st).resourcesMap = st.resourcesMap := by
  intro bs
  induction bs with
  | nil => intro st; rfl
  | cons b rest ih =>
    intro st
    simp only [processBindings]
    rw [ih _, processMembers_rmap]

/-- C9 (amended): when the stream loop meets a policy row whose resource
identifier is not yet tracked, it creates a Resource whose kind is inferred
from the identifier by `extractResourceType` and whose location is the
literal `"global"` (not `"unknown"`), with name `extractResourceName`. -/
theorem c9_stream_resource_kind_and_location (st : LoopState) (row : PolicyRow)
    (h : alookup st.resourcesMap row.Resource = none) :
    (processRow st row).resourcesMap
      = st.resourcesMap ++ [(row.Resource,
          { ID := row.Resource, Name := extractResourceName row.Resource,
            RType := extractResourceType row.Resource,
            Location := (("global")).toList, IAM := [] })] := by
  unfold processRow
  rw [processBindings_rmap, if_pos h]

/-- Witness for C9 (amended): a fresh Cloud-Run-shaped asset name yields a
tracked resource with kind `"cloudrun"` (inferred from the service segment)
and location `"global"`. -/
theorem c9_witness :
    (alookup c9st.resourcesMap c9row.Resource = none) ∧
    (processRow c9st c9row).resourcesMap
      = c9st.resourcesMap ++ [(c9row.Resource,
          { ID := c9row.Resource, Name := extractResourceName c9row.Resource,
            RType := extractResourceType c9row.Resource,
            Location := (("global")).toList, IAM := [] })] :=
  ⟨by decide, c9_stream_resource_kind_and_location c9st c9row (by decide)⟩

/-- C9 counterexample: the claim as stated requires the location field of a
stream-created Resource to be `"unknown"`; the code sets `"global"`. -/
theorem c9_counterexample :
    ∃ mx : AccessMatrix,
      GetAccessMatrix (("p")).toList (Except.ok []) (Except.ok [])
        { rows := [c9row], streamErr := none } = Except.ok mx ∧
      mx.Resources.map Resource.Location = [(("global")).toList] ∧
      (("global")).toList ≠ (("unknown")).toList :=
  ⟨_, rfl, by decide, by decide⟩

/-- C10: `parseUser` is total by construction; each known-prefix branch
requires at least one character after the prefix, so a raw member string that
is exactly a known prefix (empty identifier) is classified as `other` with
the whole raw string as identifier, while any non-empty identifier after the
prefix is classified under that prefix with the identifier stripped. -/
theorem c10_parseUser_prefix_boundary :
    parseUser (("user:")).toList
      = { Email := (("user:")).toList, UType := (("other")).toList } ∧
    parseUser (("serviceAccount:")).toList
      = { Email := (("serviceAccount:")).toList, UType := (("other")).toList } ∧
    parseUser (("group:")).toList
      = { Email := (("group:")).toList, UType := (("other")).toList } ∧
    parseUser (("domain:")).toList
      = { Email := (("domain:")).toList, UType := (("other")).toList } ∧
    (∀ (c : Char) (s : Str), parseUser ((("user:")).toList ++ c :: s)
        = { Email := c :: s, UType := (("user")).toList }) ∧
    (∀ (c : Char) (s : Str), parseUser ((("serviceAccount:")).toList ++ c :: s)
        = { Email := c :: s, UType := (("serviceAccount")).toList }) ∧
    (∀ (c : Char) (s : Str), parseUser ((("group:")).toList ++ c :: s)
        = { Email := c :: s, UType := (("group")).toList }) ∧
    (∀ (c : Char) (s : Str), parseUser ((("domain:")).toList ++ c :: s)
        = { Email := c :: s, UType := (("domain")).toList }) := by
  refine ⟨by decide, by decide, by decide, by decide, ?_, ?_, ?_, ?_⟩
  · intro c s
    unfold parseUser
    rw [if_pos ⟨by simp, rfl⟩]
    rfl
  · intro c s
    unfold parseUser
    have hA : ¬(((("serviceAccount:")).toList ++ c :: s).length > 5 ∧
        List.take 5 ((("serviceAccount:")).toList ++ c :: s) = (("user:")).toList) := by
      intro hand
      have ht : List.take 5 ((("serviceAccount:")).toList ++ c :: s)
          = 's' :: 'e' :: 'r' :: 'v' :: 'i' :: [] := rfl
      rw [ht] at hand
      exact absurd hand.2 (by decide)
    rw [if_neg hA, if_pos ⟨by simp, rfl⟩]
    rfl
  · intro c s
    unfold parseUser
    have hA : ¬(((("group:")).toList ++ c :: s).length > 5 ∧
        List.take 5 ((("group:")).toList ++ c :: s) = (("user:")).toList) := by
      intro hand
      have ht : List.take 5 ((("group:")).toList ++ c :: s)
          = 'g' :: 'r' :: 'o' :: 'u' :: 'p' :: [] := rfl
      rw [ht] at hand
      exact absurd hand.2 (by decide)
    have hB : ¬(((("group:")).toList ++ c :: s).length > 15 ∧
        List.take 15 ((("group:")).toList ++ c :: s) = (("serviceAccount:")).toList) := by
      intro hand
      have h15 : List.take 15 ((("group:")).toList ++ c :: s)
          = 'g' :: 'r' :: 'o' :: 'u' :: 'p' :: ':' :: c :: List.take 8 s := rfl
      rw [h15] at hand
      have hh := congrArg List.head? hand.2
      simp at hh
    rw [if_neg hA, if_neg hB, if_pos ⟨by simp, rfl⟩]
    rfl
  · intro c s
    unfold parseUser
    have hA : ¬(((("domain:")).toList ++ c :: s).length > 5 ∧
        List.take 5 ((("domain:")).toList ++ c :: s) = (("user:")).toList) := by
      intro hand
      have ht : List.take 5 ((("domain:")).toList ++ c :: s)
          = 'd' :: 'o' :: 'm' :: 'a' :: 'i' :: [] := rfl
      rw [ht] at hand
      exact absurd hand.2 (by decide)
    have hB : ¬(((("domain:")).toList ++ c :: s).length > 15 ∧
        List.take 15 ((("domain:")).toList ++ c :: s) = (("serviceAccount:")).toList) := by
      intro hand
      have h15 : List.take 15 ((("domain:")).toList ++ c :: s)
          = 'd' :: 'o' :: 'm' :: 'a' :: 'i' :: 'n' :: ':' :: c :: List.take 7 s := rfl
      rw [h15] at hand
      have hh := congrArg List.head? hand.2
      simp at hh
    have hC : ¬(((("domain:")).toList ++ c :: s).length > 6 ∧
        List.take 6 ((("domain:")).toList ++ c :: s) = (("group:")).toList) := by
      intro hand
      have ht : List.take 6 ((("domain:")).toList ++ c :: s)
          = 'd' :: 'o' :: 'm' :: 'a' :: 'i' :: 'n' :: [] := rfl
      rw [ht] at hand
      exact absurd hand.2 (by decide)
    rw [if_neg hA, if_neg hB, if_neg hC, if_pos ⟨by simp, rfl⟩]
    rfl

/-- C2: evaluation of the code at the failing input.  The inventory-side
identifier of a VM is its bare numeric id (`"12345"`), the stream-side
identifier is the hierarchical asset name ending in the VM's display name;
the code's canonicalizer maps them to different (kind, name) pairs —
`("other", "12345")` versus `("vm", "my-vm")` — and `GetAccessMatrix`, which
joins resources on the raw identifier string, keeps two separate Resource
entries for the same VM instead of merging them. -/
theorem c2_numeric_id_not_canonicalized :
    extractResourceName (("12345")).toList = (("12345")).toList ∧
    extractResourceType (("12345")).toList = (("other")).toList ∧
    extractResourceName c2row.Resource = (("my-vm")).toList ∧
    extractResourceType c2row.Resource = (("vm")).toList ∧
    (∃ mx : AccessMatrix,
      GetAccessMatrix (("p")).toList (Except.ok []) (Except.ok [c2vm])
        { rows := [c2row], streamErr := none } = Except.ok mx ∧
      mx.Resources.length = 2 ∧
      mx.Resources.map Resource.ID
        = [(("12345")).toList, c2row.Resource]) :=
  ⟨by decide, by decide, by decide, by decide, ⟨_, rfl, by decide, by decide⟩⟩

theorem memStr_append_left {l : List Str} (l2 : List Str) {x : Str}
    (h : memStr l x = true) : memStr (l ++ l2) x = true := by
  rw [memStr_iff] at h ⊢
  exact List.mem_append_left _ h

theorem memStr_append_self (l : List Str) (x : Str) : memStr (l ++ [x]) x = true := by
  rw [memStr_iff]
  simp

theorem processMember_c3inv {rid rname rtype role : Str} {st : LoopState} {m : Str}
    (hm : endsWithColon (parseUser m).Email = false)
    (h : C3Inv st) : C3Inv (processMember rid rname rtype role st m) := by
  obtain ⟨h1, h2, h3⟩ := h
  unfold processMember
  dsimp only
  by_cases hv : memStr st.validUsers (parseUser m).Email = true
  · rw [if_pos hv]
    by_cases hk : alookup st.accessMap (accessKey (parseUser m).Email rid role) = none
    · rw [if_pos hk]
      refine ⟨h1, ?_, ?_⟩
      · intro p hp
        rcases List.mem_append.mp hp with hp' | hp'
        · exact h2 p hp'
        · rcases List.mem_singleton.mp hp' with rfl
          exact hv
      · intro p hp
        rcases List.mem_append.mp hp with hp' | hp'
        · exact h3 p hp'
        · rcases List.mem_singleton.mp hp' with rfl
          exact hm
    · rw [if_neg hk]
      exact ⟨h1, h2, h3⟩
  · rw [if_neg hv]
    have h1' : ∀ em : Str,
        memStr (st.validUsers ++ [(parseUser m).Email]) em = true ↔
          ∃ u ∈ st.users ++ [parseUser m], u.Email = em := by
      intro em
      rw [memStr_iff]
      constructor
      · intro hmem
        rcases List.mem_append.mp hmem with hmem' | hmem'
        · obtain ⟨u, hu, he⟩ := (h1 em).mp ((memStr_iff _ _).mpr hmem')
          exact ⟨u, List.mem_append_left _ hu, he⟩
        · rcases List.mem_singleton.mp hmem' with rfl
          exact ⟨parseUser m, List.mem_append_right _ (List.mem_singleton.mpr rfl), rfl⟩
      · rintro ⟨u, hu, he⟩
        rcases List.mem_append.mp hu with hu' | hu'
        · exact List.mem_append_left _
            ((memStr_iff _ _).mp ((h1 em).mpr ⟨u, hu', he⟩))
        · rcases List.mem_singleton.mp hu' with rfl
          rw [← he]
          exact List.mem_append_right _ (List.mem_singleton.mpr rfl)
    have h2' : ∀ p ∈ st.accessMap,
        memStr (st.validUsers ++ [(parseUser m).Email]) p.2.UserEmail = true :=
      fun p hp => memStr_append_left _ (h2 p hp)
    by_cases hk : alookup st.accessMap (accessKey (parseUser m).Email rid role) = none
    · rw [if_pos hk]
      refine ⟨h1', ?_, ?_⟩
      · intro p hp
        rcases List.mem_append.mp hp with hp' | hp'
        · exact h2' p hp'
        · rcases List.mem_singleton.mp hp' with rfl
          exact memStr_append_self _ _
      · intro p hp
        rcases List.mem_append.mp hp with hp' | hp'
        · exact h3 p hp'
        · rcases List.mem_singleton.mp hp' with rfl
          exact hm
    · rw [if_neg hk]
      exact ⟨h1', h2', h3⟩

theorem processMembers_c3inv {rid rname rtype role : Str} :
    ∀ (ms : List Str) (st : LoopState),
      (∀ m ∈ ms, endsWithColon (parseUser m).Email = false) →
      C3Inv st → C3Inv (processMembers rid rname rtype role ms st) := by
  intro ms
  induction ms with
  | nil => intro st _ h; exact h
  | cons m rest ih =>
    intro st hm h
    simp only [processMembers]
    exact ih _ (fun m' hm' => hm m' (List.mem_cons_of_mem _ hm'))
      (processMember_c3inv (hm m (List.mem_cons_self _ _)) h)

theorem processBindings_c3inv {rid rname rtype : Str} :
    ∀ (bs : List Binding) (st : LoopState),
      (∀ b ∈ bs, ∀ m ∈ b.Members, endsWithColon (parseUser m).Email = false) →
      C3Inv st → C3Inv (processBindings rid rname rtype bs st) := by
  intro bs
  induction bs with
  | nil => intro st _ h; exact h
  | cons b rest ih =>
    intro st hm h
    simp only [processBindings]
    exact ih _ (fun b' hb' => hm b' (List.mem_cons_of_mem _ hb'))
      (processMembers_c3inv _ _ (hm b (List.mem_cons_self _ _)) h)

theorem processRow_c3inv {st : LoopState} {row : PolicyRow}
    (hm : ∀ b ∈ row.Bindings, ∀ m ∈ b.Members, endsWithColon (parseUser m).Email = false)
    (h : C3Inv st) : C3Inv (processRow st row) := by
  unfold processRow
  dsimp only
  apply processBindings_c3inv _ _ hm
  split
  · exact ⟨h.1, h.2.1, h.2.2⟩
  · exact h

theorem processRows_c3inv :
    ∀ (rows : List PolicyRow) (st : LoopState),
      (∀ row ∈ rows, ∀ b ∈ row.Bindings, ∀ m ∈ b.Members,
        endsWithColon (parseUser m).Email = false) →
      C3Inv st → C3Inv (processRows rows st) := by
  intro rows
  induction rows with
  | nil => intro st _ h; exact h
  | cons row rest ih =>
    intro st hm h
    simp only [processRows]
    exact ih _ (fun r hr => hm r (List.mem_cons_of_mem _ hr))
      (processRow_c3inv (hm row (List.mem_cons_self _ _)) h)

theorem pa_keys_pred (pid : Str) (P : Str → Prop) :
    ∀ (am : AccessList) (acc : List (Str × List Str)),
      (∀ q ∈ acc, P q.1) → (∀ p ∈ am, P p.2.UserEmail) →
      ∀ q ∈ projectAccessByUser pid am acc, P q.1 := by
  intro am
  induction am with
  | nil => intro acc hacc _ q hq; exact hacc q hq
  | cons p rest ih =>
    intro acc hacc ham q hq
    simp only [projectAccessByUser] at hq
    refine ih _ ?_ (fun p' hp' => ham p' (List.mem_cons_of_mem _ hp')) q hq
    intro q' hq'
    by_cases hc : p.2.ResourceID = pid
    · rw [if_pos hc] at hq'
      rcases aappend_keys hq' with h | ⟨q'', hq'', he⟩
      · rw [h]
        exact ham p (List.mem_cons_self _ _)
      · rw [he]
        exact hacc q'' hq''
    · rw [if_neg hc] at hq'
      exact hacc q' hq'

theorem inheritStep_entries_pred (P : Str → Prop) {pid u role : Str} (hu : P u) :
    ∀ (res : List (Str × Resource)) (am : AccessList),
      (∀ p ∈ am, P p.2.UserEmail) →
      ∀ p ∈ inheritStep pid u role res am, P p.2.UserEmail := by
  intro res
  induction res with
  | nil => intro am ham p hp; exact ham p hp
  | cons q rest ih =>
    obtain ⟨rid, r⟩ := q
    intro am ham p hp
    simp only [inheritStep] at hp
    refine ih _ ?_ p hp
    intro p' hp'
    by_cases h1 : rid = pid
    · rw [if_pos h1] at hp'
      exact ham p' hp'
    · rw [if_neg h1] at hp'
      by_cases h2 : containsStr (getApplicableResourceTypes role) r.RType = true
      · rw [if_pos h2] at hp'
        by_cases h3 : alookup am (accessKey u rid role) = none
        · rw [if_pos h3] at hp'
          rcases List.mem_append.mp hp' with hp'' | hp''
          · exact ham p' hp''
          · rcases List.mem_singleton.mp hp'' with rfl
            exact hu
        · rw [if_neg h3] at hp'
          exact ham p' hp'
      · rw [if_neg h2] at hp'
        exact ham p' hp'

theorem resolveRoles_entries_pred (P : Str → Prop) {pid u : Str}
    (res : List (Str × Resource)) (hu : P u) :
    ∀ (roles : List Str) (am : AccessList),
      (∀ p ∈ am, P p.2.UserEmail) →
      ∀ p ∈ resolveRoles pid res u roles am, P p.2.UserEmail := by
  intro roles
  induction roles with
  | nil => intro am ham p hp; exact ham p hp
  | cons role rs ih =>
    intro am ham p hp
    simp only [resolveRoles] at hp
    exact ih _ (inheritStep_entries_pred P hu res am ham) p hp

theorem resolveList_entries_pred (P : Str → Prop) {pid : Str}
    (res : List (Str × Resource)) :
    ∀ (pairs : List (Str × List Str)) (am : AccessList),
      (∀ q ∈ pairs, P q.1) →
      (∀ p ∈ am, P p.2.UserEmail) →
      ∀ p ∈ resolveList pid res pairs am, P p.2.UserEmail := by
  intro pairs
  induction pairs with
  | nil => intro am _ ham p hp; exact ham p hp
  | cons q0 rest ih =>
    obtain ⟨u, roles⟩ := q0
    intro am hq ham p hp
    simp only [resolveList] at hp
    exact ih _ (fun q' hq' => hq q' (List.mem_cons_of_mem _ hq'))
      (resolveRoles_entries_pred P res (hq (u, roles) (List.mem_cons_self _ _)) roles am ham)
      p hp

theorem resolveInheritance_entries_pred (P : Str → Prop) {pid : Str}
    (res : List (Str × Resource)) (am : AccessList)
    (ham : ∀ p ∈ am, P p.2.UserEmail) :
    ∀ p ∈ resolveInheritance pid res am, P p.2.UserEmail := by
  unfold resolveInheritance
  exact resolveList_entries_pred P res _ am
    (pa_keys_pred pid P am [] (fun q hq => absurd hq (List.not_mem_nil q)) ham) ham

theorem urr_keys_pred (Q : Str → Prop) :
    ∀ (am : AccessList) (acc : List (Str × List Str)),
      (∀ q ∈ acc, Q q.1) →
      (∀ p ∈ am, Q (groupKey p.2.UserEmail p.2.ResourceID)) →
      ∀ q ∈ userResourceRoles am acc, Q q.1 := by
  intro am
  induction am with
  | nil => intro acc hacc _ q hq; exact hacc q hq
  | cons p rest ih =>
    intro acc hacc ham q hq
    simp only [userResourceRoles] at hq
    refine ih _ ?_ (fun p' hp' => ham p' (List.mem_cons_of_mem _ hp')) q hq
    intro q' hq'
    rcases aappend_keys hq' with h | ⟨q'', hq'', he⟩
    · rw [h]
      exact ham p (List.mem_cons_self _ _)
    · rw [he]
      exact hacc q'' hq''

theorem groupKey_eq (E rid : Str) : groupKey E rid = E ++ sep2 ++ rid := rfl

theorem assembleEntries_email (users : List User) (rm : List (Str × Resource)) :
    ∀ (pairs : List (Str × List Str)) (acc : List AccessEntry),
      (∀ a ∈ acc, ∃ u ∈ users, u.Email = a.UserEmail) →
      (∀ q ∈ pairs, ∃ E rid : Str, q.1 = groupKey E rid ∧ endsWithColon E = false ∧
        ∃ u ∈ users, u.Email = E) →
      ∀ a ∈ assembleEntries rm pairs acc, ∃ u ∈ users, u.Email = a.UserEmail := by
  intro pairs
  induction pairs with
  | nil => intro acc hacc _ a ha; exact hacc a ha
  | cons q0 rest ih =>
    obtain ⟨key, roles⟩ := q0
    intro acc hacc hp a ha
    simp only [assembleEntries] at ha
    refine ih _ ?_ (fun q' hq' => hp q' (List.mem_cons_of_mem _ hq')) a ha
    obtain ⟨E, rid, hkey0, hcol, hus⟩ := hp (key, roles) (List.mem_cons_self _ _)
    have hkey : key = groupKey E rid := hkey0
    intro a' ha'
    by_cases hl : (splitStr ((("::"))).toList key).length ≠ 2
    · rw [if_pos hl] at ha'
      exact hacc a' ha'
    · rw [if_neg hl] at ha'
      have hl2 : (splitStr sep2 (E ++ sep2 ++ rid)).length = 2 := by
        have : splitStr ((("::"))).toList key = splitStr sep2 (E ++ sep2 ++ rid) := by
          rw [sep2_eq, hkey, groupKey_eq]
        rw [← this]
        omega
      have hparts : splitStr sep2 (E ++ sep2 ++ rid) = [E, rid] :=
        split_group_eq E rid hcol hl2
      have hkparts : splitStr ((("::"))).toList key = [E, rid] := by
        rw [sep2_eq, hkey, groupKey_eq]
        exact hparts
      rw [hkparts] at ha'
      simp only [List.headD, List.drop] at ha'
      cases halo : alookup rm rid with
      | none =>
        rw [halo] at ha'
        exact hacc a' ha'
      | some r =>
        rw [halo] at ha'
        rcases List.mem_append.mp ha' with ha'' | ha''
        · exact hacc a' ha''
        · rcases List.mem_singleton.mp ha'' with rfl
          exact hus

theorem pipeline_access_emails (rows : List PolicyRow) (st0 : LoopState) (pidR : Str)
    (H : ∀ row ∈ rows, ∀ b ∈ row.Bindings, ∀ m ∈ b.Members,
      endsWithColon (parseUser m).Email = false)
    (h0 : C3Inv st0) :
    ∀ a ∈ assembleEntries (processRows rows st0).resourcesMap
        (userResourceRoles
          (resolveInheritance pidR (processRows rows st0).resourcesMap
            (processRows rows st0).accessMap) []) [],
      ∃ u ∈ (processRows rows st0).users, u.Email = a.UserEmail := by
  obtain ⟨h1, h2, h3⟩ := processRows_c3inv rows st0 H h0
  have hP : ∀ p ∈ resolveInheritance pidR (processRows rows st0).resourcesMap
      (processRows rows st0).accessMap,
      (memStr (processRows rows st0).validUsers p.2.UserEmail = true ∧
        endsWithColon p.2.UserEmail = false) :=
    resolveInheritance_entries_pred
      (fun em => memStr (processRows rows st0).validUsers em = true ∧
        endsWithColon em = false)
      (processRows rows st0).resourcesMap (processRows rows st0).accessMap
      (fun p hp => ⟨h2 p hp, h3 p hp⟩)
  have hQ : ∀ q ∈ userResourceRoles
      (resolveInheritance pidR (processRows rows st0).resourcesMap
        (processRows rows st0).accessMap) [],
      ∃ E rid : Str, q.1 = groupKey E rid ∧ endsWithColon E = false ∧
        ∃ u ∈ (processRows rows st0).users, u.Email = E := by
    apply urr_keys_pred
      (fun k => ∃ E rid : Str, k = groupKey E rid ∧ endsWithColon E = false ∧
        ∃ u ∈ (processRows rows st0).users, u.Email = E)
      _ [] (fun q hq => absurd hq (List.not_mem_nil q))
    intro p hp
    exact ⟨p.2.UserEmail, p.2.ResourceID, rfl, (hP p hp).2, (h1 _).mp (hP p hp).1⟩
  exact assembleEntries_email (processRows rows st0).users
    (processRows rows st0).resourcesMap _ []
    (fun a ha => absurd ha (List.not_mem_nil a)) hQ

theorem c3inv_initial (bs : List Binding) (rm0 : List (Str × Resource)) :
    C3Inv { resourcesMap := rm0, accessMap := [], users := getUsersList bs,
            validUsers := (getUsersList bs).map User.Email } := by
  refine ⟨?_, ?_, ?_⟩
  · intro em
    rw [memStr_iff]
    simp [List.mem_map]
  · intro p hp
    simp at hp
  · intro p hp
    simp at hp

/-- C3 (amended): for every successful run of the access aggregation whose
policy stream contains no member string whose parsed identifier ends with a
colon, every principal referenced by any AccessEntry in the returned access
list also appears in the returned principal list — including principals that
hold only resource-scoped grants and principals of inherited entries.
(Without the colon restriction the grouping key `email ++ "::" ++ resourceID`
can re-split at the wrong place and emit a dangling principal.) -/
theorem c3_access_principals_in_users (pid : Str) (pp : Except Str (List Binding))
    (kr : Except Str (List Resource)) (rows : List PolicyRow) (mx : AccessMatrix)
    (H : ∀ row ∈ rows, ∀ b ∈ row.Bindings, ∀ m ∈ b.Members,
      endsWithColon (parseUser m).Email = false)
    (hmx : GetAccessMatrix pid pp kr { rows := rows, streamErr := none }
      = Except.ok mx) :
    ∀ a ∈ mx.Access, ∃ u ∈ mx.Users, u.Email = a.UserEmail := by
  cases pp with
  | error e => simp [GetAccessMatrix, GetUsers] at hmx
  | ok bs =>
    cases kr with
    | error e =>
      simp only [GetAccessMatrix, GetUsers] at hmx
      rw [Except.ok.injEq] at hmx
      subst hmx
      exact pipeline_access_emails rows _ _ H (c3inv_initial bs [])
    | ok rs =>
      simp only [GetAccessMatrix, GetUsers] at hmx
      rw [Except.ok.injEq] at hmx
      subst hmx
      exact pipeline_access_emails rows _ _ H (c3inv_initial bs (prePopulate rs []))

/-- Witness for C3 (amended): a run with a directory principal and a
stream-only principal, on a colon-free stream, where every returned access
entry's principal is in the returned principal list. -/
theorem c3_witness :
    (∀ row ∈ c3rows, ∀ b ∈ row.Bindings, ∀ m ∈ b.Members,
      endsWithColon (parseUser m).Email = false) ∧
    (∃ mx : AccessMatrix,
      GetAccessMatrix (("p")).toList (Except.ok c3bs) (Except.ok [])
        { rows := c3rows, streamErr := none } = Except.ok mx ∧
      ∀ a ∈ mx.Access, ∃ u ∈ mx.Users, u.Email = a.UserEmail) :=
  ⟨by decide,
   ⟨_, rfl, c3_access_principals_in_users (("p")).toList (Except.ok c3bs)
      (Except.ok []) c3rows _ (by decide) rfl⟩⟩

/-- C3 counterexample: with a member string `"user:a:"` (identifier `"a:"`,
ending in a colon) granted on resource `"b"`, and a second resource `":b"`
tracked, the grouping key `"a:" ++ "::" ++ "b"` re-splits as `["a", ":b"]`,
so the returned access list references principal `"a"`, which is not in the
returned principal list: the claim fails on the code as stated. -/
theorem c3_counterexample :
    ∃ mx : AccessMatrix,
      GetAccessMatrix (("p")).toList (Except.ok []) (Except.ok [])
        { rows := c3badrows, streamErr := none } = Except.ok mx ∧
      ¬(∀ a ∈ mx.Access, ∃ u ∈ mx.Users, u.Email = a.UserEmail) :=
  ⟨_, rfl, by decide⟩

theorem allMembers_mem : ∀ (bs : List Binding), ∀ b ∈ bs, ∀ m ∈ b.Members,
    m ∈ allMembers bs := by
  intro bs
  induction bs with
  | nil => intro b hb; simp at hb
  | cons b0 rest ih =>
    intro b hb m hm
    simp only [allMembers, List.mem_append]
    rcases List.mem_cons.mp hb with rfl | hb'
    · exact Or.inl hm
    · exact Or.inr (ih b hb' m hm)

theorem addMembers_good {MS : List Str}
    (H : ∀ m1 ∈ MS, ∀ m2 ∈ MS, m1 ≠ m2 → (parseUser m1).Email ≠ (parseUser m2).Email) :
    ∀ (ms : List Str) (acc : List (Str × User)),
      (∀ m ∈ ms, m ∈ MS) →
      ((acc.map (fun p => p.2.Email)).Nodup ∧
        ∀ p ∈ acc, p.2 = parseUser p.1 ∧ p.1 ∈ MS) →
      (((addMembers ms acc).map (fun p => p.2.Email)).Nodup ∧
        ∀ p ∈ addMembers ms acc, p.2 = parseUser p.1 ∧ p.1 ∈ MS) := by
  intro ms
  induction ms with
  | nil => intro acc _ h; exact h
  | cons m rest ih =>
    intro acc hms h
    obtain ⟨hnd, hprop⟩ := h
    simp only [addMembers]
    by_cases hl : alookup acc m = none
    · rw [if_pos hl]
      refine ih _ (fun m' hm' => hms m' (List.mem_cons_of_mem _ hm')) ⟨?_, ?_⟩
      · rw [List.map_append]
        rw [List.nodup_append]
        refine ⟨hnd, List.nodup_singleton _, ?_⟩
        intro em hem
        simp only [List.map_cons, List.map_nil, List.mem_singleton]
        intro hem2
        obtain ⟨p, hp, hpe⟩ := List.mem_map.mp hem
        have hne : p.1 ≠ m := alookup_none_no_key hl p hp
        have := H p.1 (hprop p hp).2 m (hms m (List.mem_cons_self _ _)) hne
        apply this
        rw [← (hprop p hp).1, hpe, hem2]
      · intro p hp
        rcases List.mem_append.mp hp with hp' | hp'
        · exact hprop p hp'
        · rcases List.mem_singleton.mp hp' with rfl
          exact ⟨rfl, hms m (List.mem_cons_self _ _)⟩
    · rw [if_neg hl]
      exact ih _ (fun m' hm' => hms m' (List.mem_cons_of_mem _ hm')) ⟨hnd, hprop⟩

theorem getUsersAcc_good {MS : List Str}
    (H : ∀ m1 ∈ MS, ∀ m2 ∈ MS, m1 ≠ m2 → (parseUser m1).Email ≠ (parseUser m2).Email) :
    ∀ (bs : List Binding) (acc : List (Str × User)),
      (∀ b ∈ bs, ∀ m ∈ b.Members, m ∈ MS) →
      ((acc.map (fun p => p.2.Email)).Nodup ∧
        ∀ p ∈ acc, p.2 = parseUser p.1 ∧ p.1 ∈ MS) →
      (((getUsersAcc bs acc).map (fun p => p.2.Email)).Nodup ∧
        ∀ p ∈ getUsersAcc bs acc, p.2 = parseUser p.1 ∧ p.1 ∈ MS) := by
  intro bs
  induction bs with
  | nil => intro acc _ h; exact h
  | cons b rest ih =>
    intro acc hbs h
    simp only [getUsersAcc]
    exact ih _ (fun b' hb' => hbs b' (List.mem_cons_of_mem _ hb'))
      (addMembers_good H b.Members acc (hbs b (List.mem_cons_self _ _)) h)

theorem getUsersList_emails_nodup (bs : List Binding)
    (H : ∀ m1 ∈ allMembers bs, ∀ m2 ∈ allMembers bs, m1 ≠ m2 →
      (parseUser m1).Email ≠ (parseUser m2).Email) :
    ((getUsersList bs).map User.Email).Nodup := by
  unfold getUsersList
  have h := getUsersAcc_good H bs [] (allMembers_mem bs)
    ⟨List.nodup_nil, fun p hp => absurd hp (List.not_mem_nil p)⟩
  rw [List.map_map]
  exact h.1

theorem processMember_c8inv {rid rname rtype role : Str} {st : LoopState} {m : Str}
    (h : C8Inv st) : C8Inv (processMember rid rname rtype role st m) := by
  obtain ⟨h1, h4⟩ := h
  unfold processMember
  dsimp only
  by_cases hv : memStr st.validUsers (parseUser m).Email = true
  · rw [if_pos hv]
    split
    · exact ⟨h1, h4⟩
    · exact ⟨h1, h4⟩
  · rw [if_neg hv]
    have h1' : ∀ em : Str,
        memStr (st.validUsers ++ [(parseUser m).Email]) em = true ↔
          ∃ u ∈ st.users ++ [parseUser m], u.Email = em := by
      intro em
      rw [memStr_iff]
      constructor
      · intro hmem
        rcases List.mem_append.mp hmem with hmem' | hmem'
        · obtain ⟨u, hu, he⟩ := (h1 em).mp ((memStr_iff _ _).mpr hmem')
          exact ⟨u, List.mem_append_left _ hu, he⟩
        · rcases List.mem_singleton.mp hmem' with rfl
          exact ⟨parseUser m, List.mem_append_right _ (List.mem_singleton.mpr rfl), rfl⟩
      · rintro ⟨u, hu, he⟩
        rcases List.mem_append.mp hu with hu' | hu'
        · exact List.mem_append_left _
            ((memStr_iff _ _).mp ((h1 em).mpr ⟨u, hu', he⟩))
        · rcases List.mem_singleton.mp hu' with rfl
          rw [← he]
          exact List.mem_append_right _ (List.mem_singleton.mpr rfl)
    have h4' : ((st.users ++ [parseUser m]).map User.Email).Nodup := by
      rw [List.map_append]
      rw [List.nodup_append]
      refine ⟨h4, List.nodup_singleton _, ?_⟩
      intro em hem
      simp only [List.map_cons, List.map_nil, List.mem_singleton]
      intro hem2
      apply hv
      obtain ⟨u, hu, hue⟩ := List.mem_map.mp hem
      exact (h1 _).mpr ⟨u, hu, by rw [hue, hem2]⟩
    split
    · exact ⟨h1', h4'⟩
    · exact ⟨h1', h4'⟩

theorem processMembers_c8inv {rid rname rtype role : Str} :
    ∀ (ms : List Str) (st : LoopState),
      C8Inv st → C8Inv (processMembers rid rname rtype role ms st) := by
  intro ms
  induction ms with
  | nil => intro st h; exact h
  | cons m rest ih =>
    intro st h
    simp only [processMembers]
    exact ih _ (processMember_c8inv h)

theorem processBindings_c8inv {rid rname rtype : Str} :
    ∀ (bs : List Binding) (st : LoopState),
      C8Inv st → C8Inv (processBindings rid rname rtype bs st) := by
  intro bs
  induction bs with
  | nil => intro st h; exact h
  | cons b rest ih =>
    intro st h
    simp only [processBindings]
    exact ih _ (processMembers_c8inv _ _ h)

theorem processRow_c8inv {st : LoopState} {row : PolicyRow}
    (h : C8Inv st) : C8Inv (processRow st row) := by
  unfold processRow
  dsimp only
  apply processBindings_c8inv
  split
  · exact ⟨h.1, h.2⟩
  · exact h

theorem processRows_c8inv :
    ∀ (rows : List PolicyRow) (st : LoopState),
      C8Inv st → C8Inv (processRows rows st) := by
  intro rows
  induction rows with
  | nil => intro st h; exact h
  | cons row rest ih =>
    intro st h
    simp only [processRows]
    exact ih _ (processRow_c8inv h)

/-- C8 (amended): provided no two distinct raw member strings of the project
directory strip to the same identifier, the final principal list contains at
most one Principal per distinct identifier string — principals first seen via
the policy stream are deduplicated by identifier against everything seen
before.  (The directory itself deduplicates by raw member string, so two
directory members with the same identifier under different prefixes, e.g.
`"user:a@x"` and `"group:a@x"`, yield two Principal entries.) -/
theorem c8_principals_unique_per_identifier (pid : Str) (bs : List Binding)
    (kr : Except Str (List Resource)) (rows : List PolicyRow) (mx : AccessMatrix)
    (H : ∀ m1 ∈ allMembers bs, ∀ m2 ∈ allMembers bs, m1 ≠ m2 →
      (parseUser m1).Email ≠ (parseUser m2).Email)
    (hmx : GetAccessMatrix pid (Except.ok bs) kr { rows := rows, streamErr := none }
      = Except.ok mx) :
    (mx.Users.map User.Email).Nodup := by
  cases kr with
  | error e =>
    simp only [GetAccessMatrix, GetUsers] at hmx
    rw [Except.ok.injEq] at hmx
    subst hmx
    exact (processRows_c8inv rows _
      ⟨(c3inv_initial bs []).1, getUsersList_emails_nodup bs H⟩).2
  | ok rs =>
    simp only [GetAccessMatrix, GetUsers] at hmx
    rw [Except.ok.injEq] at hmx
    subst hmx
    exact (processRows_c8inv rows _
      ⟨(c3inv_initial bs (prePopulate rs [])).1, getUsersList_emails_nodup bs H⟩).2

/-- Witness for C8 (amended): a directory with two distinct identifiers and a
stream that re-observes one of them under a different prefix plus one new
principal; the final principal list holds pairwise-distinct identifiers. -/
theorem c8_witness :
    (∀ m1 ∈ allMembers c8bs, ∀ m2 ∈ allMembers c8bs, m1 ≠ m2 →
      (parseUser m1).Email ≠ (parseUser m2).Email) ∧
    (∃ mx : AccessMatrix,
      GetAccessMatrix (("p")).toList (Except.ok c8bs) (Except.ok [])
        { rows := c8rows, streamErr := none } = Except.ok mx ∧
      (mx.Users.map User.Email).Nodup) :=
  ⟨by decide,
   ⟨_, rfl, c8_principals_unique_per_identifier (("p")).toList c8bs (Except.ok [])
      c8rows _ (by decide) rfl⟩⟩

/-- C8 counterexample: the project directory deduplicates by raw member
string, not by stripped identifier, so the members `"user:a@x"` and
`"group:a@x"` produce two Principal entries with the same identifier
`"a@x"` in the final principal list, refuting the claim as stated. -/
theorem c8_counterexample :
    ∃ mx : AccessMatrix,
      GetAccessMatrix (("p")).toList (Except.ok c8dupbs) (Except.ok [])
        { rows := [], streamErr := none } = Except.ok mx ∧
      mx.Users.map User.Email = [(("a@x")).toList, (("a@x")).toList] ∧
      ¬(mx.Users.map User.Email).Nodup :=
  ⟨_, rfl, by decide, by decide⟩
